import Mathlib

/-!
# Verification of the code-context indexing and retrieval core

This file gives a shallow embedding, in Lean 4, of the indexing and retrieval
core of the `code-context` repository (an AST-aware code indexer over a Milvus
vector database), and settles a list of claims about it.

The embedding follows the TypeScript source:

* `packages/core/src/indexer.ts` — `CodeIndexer` (`generateId`,
  `getCollectionName`, `semanticSearch`, `reindexByChange`,
  `deleteFileChunks`, `processFileList`, `updateIgnorePatterns`,
  progress reporting);
* `packages/core/src/vectordb/milvus-vectordb.ts` — `MilvusVectorDatabase`
  (`search`, `hybridSearch` with its text-filter fallbacks);
* the `EnhancedAstSplitter` (leading-comment extension).

Modelling conventions:

* Machine integers are `Nat`/`Int` with explicit reduction mod `2 ^ 32`
  where the hash algorithms overflow; scores (JS doubles) are modelled as
  rationals, which is faithful for the claims at stake (multipliers such as
  `0.9` versus `0.8`, threshold comparisons).
* External collaborators (the Milvus client, the embedder, the file
  synchronizer delta) are parameters of the models (oracles); the code under
  verification is everything the TypeScript source does around those calls.
* `crypto.createHash` is embedded by full implementations of SHA-256 and MD5
  over byte lists (checked below against published test vectors), with
  strings converted to bytes by UTF-8, as the source does.
-/

namespace CodeContext

set_option maxRecDepth 10000

/-! ## 32-bit words as naturals -/

/-- Reduce a natural to a 32-bit word, as TypeScript 32-bit operations do. -/
def mask32 (x : Nat) : Nat := x % 4294967296

/-- Bitwise complement on 32-bit words. -/
def not32 (x : Nat) : Nat := Nat.xor x 4294967295

/-- Right rotation of a 32-bit word. -/
def rotr32 (x n : Nat) : Nat := mask32 ((x >>> n) ||| (x <<< (32 - n)))

/-- Left rotation of a 32-bit word. -/
def rotl32 (x n : Nat) : Nat := mask32 ((x <<< n) ||| (x >>> (32 - n)))

/-! ## Bytes and hex strings -/

/-- The lowercase hex digit for `n < 16`, as `digest('hex')` prints them:
code point 48 (`0`) upward for the decimal digits, 97 (`a`) upward for the
rest. -/
def hexDigit (n : Nat) : Char :=
  if n < 10 then Char.ofNat (48 + n) else Char.ofNat (87 + n)

/-- One byte as two lowercase hex characters. -/
def byteToHex (b : Nat) : List Char := [hexDigit (b / 16), hexDigit (b % 16)]

/-- A byte list as a lowercase hex string. -/
def bytesToHex (bs : List Nat) : String := String.mk (bs.flatMap byteToHex)

/-- The UTF-8 encoding of one code point. -/
def utf8Bytes (c : Nat) : List Nat :=
  if c < 128 then [c]
  else if c < 2048 then [192 + c / 64, 128 + c % 64]
  else if c < 65536 then [224 + c / 4096, 128 + c / 64 % 64, 128 + c % 64]
  else [240 + c / 262144, 128 + c / 4096 % 64, 128 + c / 64 % 64, 128 + c % 64]

/-- The UTF-8 bytes of a string, as Node `update(s, 'utf-8')` feeds a hash. -/
def strBytes (s : String) : List Nat :=
  s.data.flatMap (fun ch => utf8Bytes ch.toNat)

/-- A natural as `n` big-endian bytes (most significant first). -/
def beBytes : Nat → Nat → List Nat
  | 0, _ => []
  | n + 1, x => beBytes n (x / 256) ++ [x % 256]

/-- A natural as `n` little-endian bytes (least significant first). -/
def leBytes : Nat → Nat → List Nat
  | 0, _ => []
  | n + 1, x => x % 256 :: leBytes n (x / 256)

/-- Group a byte list into 32-bit words, big-endian. -/
def wordsBE : List Nat → List Nat
  | b0 :: b1 :: b2 :: b3 :: rest =>
      (((b0 * 256 + b1) * 256 + b2) * 256 + b3) :: wordsBE rest
  | _ => []

/-- Group a byte list into 32-bit words, little-endian. -/
def wordsLE : List Nat → List Nat
  | b0 :: b1 :: b2 :: b3 :: rest =>
      (((b3 * 256 + b2) * 256 + b1) * 256 + b0) :: wordsLE rest
  | _ => []

/-- Split a word list into blocks of sixteen words (fuel-driven so that the
recursion is structural; `blocks16` supplies sufficient fuel). -/
def blocks16Aux : Nat → List Nat → List (List Nat)
  | 0, _ => []
  | fuel + 1, ws => if ws = [] then [] else ws.take 16 :: blocks16Aux fuel (ws.drop 16)

/-- Split a word list into blocks of sixteen words. -/
def blocks16 (ws : List Nat) : List (List Nat) := blocks16Aux ws.length ws

/-- Merkle–Damgård padding shared by SHA-256 and MD5: append `0x80`, zeros to
56 mod 64 bytes, then the bit length on eight bytes (the two algorithms differ
only in the endianness of that length field). -/
def padZeroCount (len : Nat) : Nat := (64 + 56 - (len + 1) % 64) % 64

/-! ## SHA-256 (FIPS 180-4), over byte lists -/

/-- SHA-256 round constants (fractional cube roots of the first 64 primes). -/
def sha256K : List Nat :=
  [1116352408, 1899447441, 3049323471, 3921009573, 961987163, 1508970993,
   2453635748, 2870763221, 3624381080, 310598401, 607225278, 1426881987,
   1925078388, 2162078206, 2614888103, 3248222580, 3835390401, 4022224774,
   264347078, 604807628, 770255983, 1249150122, 1555081692, 1996064986,
   2554220882, 2821834349, 2952996808, 3210313671, 3336571891, 3584528711,
   113926993, 338241895, 666307205, 773529912, 1294757372, 1396182291,
   1695183700, 1986661051, 2177026350, 2456956037, 2730485921, 2820302411,
   3259730800, 3345764771, 3516065817, 3600352804, 4094571909, 275423344,
   430227734, 506948616, 659060556, 883997877, 958139571, 1322822218,
   1537002063, 1747873779, 1955562222, 2024104815, 2227730452, 2361852424,
   2428436474, 2756734187, 3204031479, 3329325298]

/-- SHA-256 initial hash value (fractional square roots of the first 8 primes). -/
def sha256H0 : List Nat :=
  [1779033703, 3144134277, 1013904242, 2773480762, 1359893119, 2600822924,
   528734635, 1541459225]

/-- Message padding for SHA-256: `0x80`, zeros, 64-bit big-endian bit length. -/
def sha256Pad (msg : List Nat) : List Nat :=
  msg ++ [128] ++ List.replicate (padZeroCount msg.length) 0
      ++ beBytes 8 (msg.length * 8)

def sha256S0 (x : Nat) : Nat := Nat.xor (rotr32 x 7) (Nat.xor (rotr32 x 18) (x >>> 3))
def sha256S1 (x : Nat) : Nat := Nat.xor (rotr32 x 17) (Nat.xor (rotr32 x 19) (x >>> 10))
def sha256E0 (x : Nat) : Nat := Nat.xor (rotr32 x 2) (Nat.xor (rotr32 x 13) (rotr32 x 22))
def sha256E1 (x : Nat) : Nat := Nat.xor (rotr32 x 6) (Nat.xor (rotr32 x 11) (rotr32 x 25))

/-- The next word of the SHA-256 message schedule, from the words so far. -/
def sha256NextW (w : List Nat) : Nat :=
  let i := w.length
  mask32 (sha256S1 (w.getD (i - 2) 0) + w.getD (i - 7) 0
        + sha256S0 (w.getD (i - 15) 0) + w.getD (i - 16) 0)

/-- Extend the message schedule by `n` further words. -/
def sha256Sched (w : List Nat) : Nat → List Nat
  | 0 => w
  | n + 1 => sha256Sched (w ++ [sha256NextW w]) n

/-- One SHA-256 compression round on the eight-word working state. -/
def sha256Round (st : List Nat) (wk : Nat × Nat) : List Nat :=
  match st with
  | [a, b, c, d, e, f, g, h] =>
    let ch := Nat.xor (e &&& f) (not32 e &&& g)
    let maj := Nat.xor (a &&& b) (Nat.xor (a &&& c) (b &&& c))
    let t1 := mask32 (h + sha256E1 e + ch + wk.2 + wk.1)
    let t2 := mask32 (sha256E0 a + maj)
    [mask32 (t1 + t2), a, b, c, mask32 (d + t1), e, f, g]
  | _ => st

/-- Compress one sixteen-word block into the running hash value. -/
def sha256Block (H : List Nat) (block : List Nat) : List Nat :=
  let W := sha256Sched block 48
  let st := (W.zip sha256K).foldl sha256Round H
  (H.zip st).map (fun p => mask32 (p.1 + p.2))

/-- SHA-256 digest of a byte list, as 32 bytes. -/
def sha256 (msg : List Nat) : List Nat :=
  let hs := (blocks16 (wordsBE (sha256Pad msg))).foldl sha256Block sha256H0
  hs.flatMap (beBytes 4)

/-- SHA-256 of the UTF-8 bytes of a string, as a lowercase hex string:
`crypto.createHash('sha256').update(s, 'utf-8').digest('hex')`. -/
def sha256Hex (s : String) : String := bytesToHex (sha256 (strBytes s))

/-! ## MD5 (RFC 1321), over byte lists -/

/-- MD5 round constants `⌊|sin (i+1)| · 2^32⌋`. -/
def md5K : List Nat :=
  [3614090360, 3905402710, 606105819, 3250441966, 4118548399, 1200080426,
   2821735955, 4249261313, 1770035416, 2336552879, 4294925233, 2304563134,
   1804603682, 4254626195, 2792965006, 1236535329, 4129170786, 3225465664,
   643717713, 3921069994, 3593408605, 38016083, 3634488961, 3889429448,
   568446438, 3275163606, 4107603335, 1163531501, 2850285829, 4243563512,
   1735328473, 2368359562, 4294588738, 2272392833, 1839030562, 4259657740,
   2763975236, 1272893353, 4139469664, 3200236656, 681279174, 3936430074,
   3572445317, 76029189, 3654602809, 3873151461, 530742520, 3299628645,
   4096336452, 1126891415, 2878612391, 4237533241, 1700485571, 2399980690,
   4293915773, 2240044497, 1873313359, 4264355552, 2734768916, 1309151649,
   4149444226, 3174756917, 718787259, 3951481745]

/-- MD5 per-round left-rotation amounts. -/
def md5S : List Nat :=
  [7, 12, 17, 22, 7, 12, 17, 22, 7, 12, 17, 22, 7, 12, 17, 22,
   5, 9, 14, 20, 5, 9, 14, 20, 5, 9, 14, 20, 5, 9, 14, 20,
   4, 11, 16, 23, 4, 11, 16, 23, 4, 11, 16, 23, 4, 11, 16, 23,
   6, 10, 15, 21, 6, 10, 15, 21, 6, 10, 15, 21, 6, 10, 15, 21]

/-- Message padding for MD5: `0x80`, zeros, 64-bit little-endian bit length. -/
def md5Pad (msg : List Nat) : List Nat :=
  msg ++ [128] ++ List.replicate (padZeroCount msg.length) 0
      ++ leBytes 8 (msg.length * 8)

/-- The MD5 mixing function and message index for operation `i`. -/
def md5FG (i b c d : Nat) : Nat × Nat :=
  if i < 16 then ((b &&& c) ||| (not32 b &&& d), i)
  else if i < 32 then ((d &&& b) ||| (not32 d &&& c), (5 * i + 1) % 16)
  else if i < 48 then (Nat.xor b (Nat.xor c d), (3 * i + 5) % 16)
  else (Nat.xor c (b ||| not32 d), (7 * i) % 16)

/-- One MD5 operation on the four-word working state. -/
def md5Op (M : List Nat) (st : List Nat) (i : Nat) : List Nat :=
  match st with
  | [a, b, c, d] =>
    let fg := md5FG i b c d
    let f := mask32 (fg.1 + a + md5K.getD i 0 + M.getD fg.2 0)
    [d, mask32 (b + rotl32 f (md5S.getD i 0)), b, c]
  | _ => st

/-- Compress one sixteen-word block into the running MD5 state. -/
def md5Block (st : List Nat) (M : List Nat) : List Nat :=
  let st1 := (List.range 64).foldl (md5Op M) st
  (st.zip st1).map (fun p => mask32 (p.1 + p.2))

/-- MD5 initial state. -/
def md5H0 : List Nat := [1732584193, 4023233417, 2562383102, 271733878]

/-- MD5 digest of a byte list, as 16 bytes. -/
def md5 (msg : List Nat) : List Nat :=
  let hs := (blocks16 (wordsLE (md5Pad msg))).foldl md5Block md5H0
  hs.flatMap (leBytes 4)

/-- MD5 of the UTF-8 bytes of a string, as a lowercase hex string:
`crypto.createHash('md5').update(s).digest('hex')`. -/
def md5Hex (s : String) : String := bytesToHex (md5 (strBytes s))

/-! ## Document ids and collection names (`indexer.ts`) -/

/-- `CodeIndexer.generateId` (`indexer.ts`): build
`relativePath:startLine:endLine:content`, hash it with SHA-256, and return
`chunk_` followed by `hash.substring(0, 16)`. -/
def generateId (relativePath : String) (startLine endLine : Nat) (content : String) :
    String :=
  let combinedString :=
    relativePath ++ ":" ++ toString startLine ++ ":" ++ toString endLine ++ ":" ++ content
  "chunk_" ++ (sha256Hex combinedString).take 16

/-- The document id exactly as the specification words it: `"chunk_" +
first_16_hex(sha256(relative_path + ":" + start_line + ":" + end_line + ":" +
content))`. Stated separately from `generateId` so the two can be compared. -/
def specDocumentId (relativePath : String) (startLine endLine : Nat) (content : String) :
    String :=
  "chunk_" ++
    (sha256Hex
      (relativePath ++ ":" ++ toString startLine ++ ":" ++ toString endLine ++ ":"
        ++ content)).take 16

/-- `CodeIndexer.getCollectionName` (`indexer.ts`): `path.resolve` the codebase
path, MD5 it, and return `code_chunks_` followed by `hash.substring(0, 8)`.
Path canonicalization (`path.resolve`) touches the file system, so it is a
parameter of the model. -/
def getCollectionName (resolve : String → String) (codebasePath : String) : String :=
  let normalizedPath := resolve codebasePath
  "code_chunks_" ++ (md5Hex normalizedPath).take 8

/-- `generateCollectionName` from the hybrid-search example script: the same
computation as `CodeIndexer.getCollectionName`, transcribed from its own
source. -/
def generateCollectionName (resolve : String → String) (codebasePath : String) : String :=
  let normalizedPath := resolve codebasePath
  "code_chunks_" ++ (md5Hex normalizedPath).take 8

/-! ### Supporting facts: the embedded hashes are the real SHA-256 and MD5
(checked against the published test vectors), and a SHA-256 hex digest indeed
has 64 hex digits, so `take 16` below really is "the first 16 hex digits". -/

theorem sha256Hex_empty :
    sha256Hex "" = "e3b0c44298fc1c149afbf4c8996fb92427ae41e4649b934ca495991b7852b855" := by
  decide

theorem sha256Hex_abc :
    sha256Hex "abc" = "ba7816bf8f01cfea414140de5dae2223b00361a396177a9cb410ff61f20015ad" := by
  decide

theorem md5Hex_empty : md5Hex "" = "d41d8cd98f00b204e9800998ecf8427e" := by decide

theorem md5Hex_abc : md5Hex "abc" = "900150983cd24fb0d6963f7d28e17f72" := by decide

theorem sha256Round_length (st : List Nat) (wk : Nat × Nat) :
    (sha256Round st wk).length = st.length := by
  unfold sha256Round
  rcases st with _ | ⟨a, _ | ⟨b, _ | ⟨c, _ | ⟨d, _ | ⟨e, _ | ⟨f, _ | ⟨g, _ | ⟨h, _ | ⟨i, t⟩⟩⟩⟩⟩⟩⟩⟩⟩ <;> rfl

theorem foldl_sha256Round_length (l : List (Nat × Nat)) (H : List Nat) :
    (List.foldl sha256Round H l).length = H.length := by
  induction l generalizing H with
  | nil => rfl
  | cons x xs ih => rw [List.foldl_cons, ih, sha256Round_length]

theorem sha256Block_length (H b : List Nat) (h : H.length = 8) :
    (sha256Block H b).length = 8 := by
  unfold sha256Block
  simp [List.length_zip, foldl_sha256Round_length, h]

theorem foldl_sha256Block_length (bs : List (List Nat)) (H : List Nat) (h : H.length = 8) :
    (List.foldl sha256Block H bs).length = 8 := by
  induction bs generalizing H with
  | nil => exact h
  | cons b bs ih => exact ih _ (sha256Block_length _ _ h)

theorem beBytes_length (n : Nat) : ∀ x, (beBytes n x).length = n := by
  induction n with
  | zero => intro x; rfl
  | succ n ih => intro x; simp [beBytes, ih]

theorem flatMap_length_eq {α β : Type} (f : α → List β) (k : Nat)
    (hf : ∀ a, (f a).length = k) (l : List α) :
    (l.flatMap f).length = k * l.length := by
  induction l with
  | nil => simp
  | cons a t ih =>
    simp only [List.flatMap_cons, List.length_append, hf, ih, List.length_cons]
    ring

theorem sha256_length (msg : List Nat) : (sha256 msg).length = 32 := by
  show (((blocks16 (wordsBE (sha256Pad msg))).foldl sha256Block sha256H0).flatMap
    (beBytes 4)).length = 32
  rw [flatMap_length_eq (beBytes 4) 4 (beBytes_length 4),
    foldl_sha256Block_length _ _ (by decide)]

theorem sha256Hex_length (s : String) : (sha256Hex s).length = 64 := by
  show (String.mk ((sha256 (strBytes s)).flatMap byteToHex)).length = 64
  have h2 : ∀ b, (byteToHex b).length = 2 := fun b => rfl
  have : ((sha256 (strBytes s)).flatMap byteToHex).length = 64 := by
    rw [flatMap_length_eq byteToHex 2 h2, sha256_length]
  simpa [String.length] using this

/-- C3: `generateId` is a pure function of
`(relativePath, startLine, endLine, content)` — in this embedding it is a
function of exactly those four arguments and nothing else — and it equals the
specification formula `"chunk_" + first_16_hex(sha256(relative_path + ":" +
start_line + ":" + end_line + ":" + content))`; hence re-emitting the same
quadruple yields the identical document id. -/
theorem generateId_matches_spec (relativePath : String) (startLine endLine : Nat)
    (content : String) :
    generateId relativePath startLine endLine content =
        specDocumentId relativePath startLine endLine content ∧
      generateId relativePath startLine endLine content =
        "chunk_" ++
          (sha256Hex
            (relativePath ++ ":" ++ toString startLine ++ ":" ++ toString endLine ++ ":"
              ++ content)).take 16 := by
  exact ⟨rfl, rfl⟩

/-- C7: the collection name is `code_chunks_` followed by the first 8 hex
digits of the MD5 of the canonicalized absolute path; any two path strings
with the same canonicalization give the same collection name; and the
indexer and the example script compute the same name. -/
theorem getCollectionName_spec (resolve : String → String) (p q : String)
    (h : resolve p = resolve q) :
    getCollectionName resolve p = "code_chunks_" ++ (md5Hex (resolve p)).take 8 ∧
      getCollectionName resolve p = getCollectionName resolve q ∧
      getCollectionName resolve p = generateCollectionName resolve p := by
  refine ⟨rfl, ?_, rfl⟩
  unfold getCollectionName
  rw [h]

/-- Witness for C7 at a concrete input: `resolve = id`, `p = q = "a"`. -/
theorem getCollectionName_spec_witness :
    (id "a" : String) = id "a" ∧
      (getCollectionName id "a" = "code_chunks_" ++ (md5Hex (id "a")).take 8 ∧
        getCollectionName id "a" = getCollectionName id "a" ∧
        getCollectionName id "a" = generateCollectionName id "a") :=
  ⟨rfl, getCollectionName_spec id "a" "a" rfl⟩

/-! ## Milvus adapter and semantic search
(`milvus-vectordb.ts` and `indexer.ts`)

The Milvus client (`this.client.search`) is an external collaborator: it is a
parameter of the models below, mapping the request limit and the optional
text filter to a reply (rows, or a thrown error). Everything around it is
transcribed from the adapter. -/

/-- One row of a Milvus client search reply; `metadata` is carried already
parsed down to the one field the search paths read (`language`). Scores are
rationals standing for the JS doubles. -/
structure MilvusRow where
  id : String
  content : String
  relativePath : String
  startLine : Int
  endLine : Int
  fileExtension : String
  language : String
  score : ℚ
deriving DecidableEq

/-- A search hit as the adapter returns it: the document plus a score. -/
structure VectorSearchResult where
  row : MilvusRow
  score : ℚ
deriving DecidableEq

/-- The hit format `CodeIndexer.semanticSearch` returns. -/
structure SemanticSearchResult where
  content : String
  relativePath : String
  startLine : Int
  endLine : Int
  language : String
  score : ℚ
deriving DecidableEq

/-- JS `x || d` on numbers where `0` is falsy (`options?.topK || 10`). -/
def jsOrNat (x d : Nat) : Nat := if x = 0 then d else x

/-- JS `x || d` on strings where the empty string is falsy
(`metadata.language || 'unknown'`). -/
def jsOrStr (x d : String) : String := if x = "" then d else x

/-- A reply of the Milvus client: rows, or a thrown error. -/
inductive ClientReply where
  | ok (rows : List MilvusRow)
  | err (e : String)
deriving DecidableEq

/-- `MilvusVectorDatabase.search`: sends `limit = options?.topK || 10` and
maps the reply rows to results with the row score, in reply order. Neither
`options.threshold` nor any sorting is applied. -/
def milvusSearch (client : Nat → List MilvusRow) (topK : Nat) :
    List VectorSearchResult :=
  (client (jsOrNat topK 10)).map (fun r => ⟨r, r.score⟩)

/-- `CodeIndexer.semanticSearch`, dense path (hybrid disabled): embed the
query (the embedder is irrelevant to the shape of the result, so it is left
out), call `milvusSearch` with `{ topK, threshold }`, and convert each hit. -/
def semanticSearchDense (client : Nat → List MilvusRow) (topK : Nat) (threshold : ℚ) :
    List SemanticSearchResult :=
  let searchResults := milvusSearch client topK
  searchResults.map (fun r =>
    { content := r.row.content
      relativePath := r.row.relativePath
      startLine := r.row.startLine
      endLine := r.row.endLine
      language := jsOrStr r.row.language "unknown"
      score := r.score })

/-- A fixed document row whose score is `0.1`, used as a counterexample. -/
def lowScoreRow : MilvusRow :=
  { id := "chunk_0123456789abcdef"
    content := "class A"
    relativePath := "A.java"
    startLine := 1
    endLine := 2
    fileExtension := ".java"
    language := "java"
    score := 1 / 10 }

/-- C1 counterexample: with the default threshold `0.5`, a client reply
containing a row with score `0.1` is returned as a hit — the adapter never
drops results below the threshold. -/
theorem semanticSearch_threshold_counterexample :
    ∃ hit ∈ semanticSearchDense (fun _ => [lowScoreRow]) 5 (1 / 2),
      hit.score < 1 / 2 := by
  refine ⟨{ content := "class A", relativePath := "A.java", startLine := 1, endLine := 2,
            language := "java", score := 1 / 10 }, ?_, by norm_num⟩
  simp [semanticSearchDense, milvusSearch, lowScoreRow, jsOrNat, jsOrStr]

/-- C1 amended: `semanticSearch` (dense path) requests `topK || 10` rows from
the client and returns them converted in order with scores unchanged; the
`threshold` argument has no effect on the result, so hits with
`score < threshold` can be returned and the ordering is whatever the client
sent. -/
theorem semanticSearch_returns_client_rows (client : Nat → List MilvusRow)
    (topK : Nat) (t t' : ℚ) :
    semanticSearchDense client topK t = semanticSearchDense client topK t' ∧
      (semanticSearchDense client topK t).map (fun h => h.score) =
        (client (jsOrNat topK 10)).map MilvusRow.score := by
  refine ⟨rfl, ?_⟩
  simp [semanticSearchDense, milvusSearch, Function.comp]

/-! ### Hybrid search (`MilvusVectorDatabase.hybridSearch`)

The keyword list produced by `tokenizeChinese` (a GPT call with local
fallbacks) is an oracle input; the keyword filtering, text-filter
construction, fallback retries and score scaling are transcribed from the
source. The filter is carried structurally as its list of `content like`
keywords rather than as the SQL string. `describeCollection` failing is
observationally the same as reporting no sparse field (both leave the filter
unset), so it is folded into `hasSparseField = false`. -/

/-- JS `new Set(...)` spread back to an array: first occurrences, in order. -/
def jsSetDedup (l : List String) : List String :=
  l.foldl (fun acc x => if x ∈ acc then acc else acc ++ [x]) []

/-- Stable insertion of a string into a list sorted by descending length. -/
def insertByLenDesc (x : String) : List String → List String
  | [] => [x]
  | y :: ys => if y.length < x.length then x :: y :: ys else y :: insertByLenDesc x ys

/-- Stable sort by descending string length (`.sort((a, b) => b.length - a.length)`). -/
def sortByLenDesc (l : List String) : List String := l.foldr insertByLenDesc []

/-- The keywords the adapter puts into the `content like` text filter:
dedupe, keep words longer than two characters (at most five); if none
qualify, fall back to the three longest nonempty words. An empty result
means no filter is applied. -/
def buildFilterKeywords (keywords : List String) : List String :=
  let uniqueKeywords := jsSetDedup keywords
  let keywordsForFiltering := (uniqueKeywords.filter (fun w => 2 < w.length)).take 5
  if keywordsForFiltering = [] then
    (sortByLenDesc (uniqueKeywords.filter (fun w => 0 < w.length))).take 3
  else keywordsForFiltering

/-- JS truthiness of `options?.query` (absent or empty string is falsy). -/
def jsTruthyStr (q : Option String) : Bool :=
  match q with
  | some s => s != ""
  | none => false

/-- Scale every reply row into a result with its score multiplied by `q`. -/
def scaleResults (q : ℚ) (rows : List MilvusRow) : List VectorSearchResult :=
  rows.map (fun r => ⟨r, r.score * q⟩)

/-- `MilvusVectorDatabase.hybridSearch`. The client oracle takes the limit
and the optional filter keywords. Control flow transcribed from the source:
a text filter is attempted when BM25 is enabled, the query text is truthy,
the collection has a sparse field, and a nonempty keyword filter could be
built. If the filtered search returns rows, they are returned with scores
unchanged. If it returns empty and a filter was used, an unfiltered retry is
returned scaled by `0.9`. If it throws and a filter was used, the catch
handler retries unfiltered and returns that scaled by `0.8`; if the retry in
the empty-reply branch itself throws, control also lands in that catch
handler (one more unfiltered call). Errors propagate otherwise. -/
def hybridSearch (client : Nat → Option (List String) → ClientReply)
    (enableBM25 hasSparseField : Bool) (keywords : List String)
    (topK : Nat) (query : Option String) :
    Except String (List VectorSearchResult) :=
  let limit := jsOrNat topK 10
  let filterKws :=
    if enableBM25 && jsTruthyStr query && hasSparseField then buildFilterKeywords keywords
    else []
  let usedTextFilter := filterKws ≠ []
  let filterArg := if usedTextFilter then some filterKws else none
  match client limit filterArg with
  | .err e =>
    if usedTextFilter then
      match client limit none with
      | .ok rows2 => if rows2 = [] then .ok [] else .ok (scaleResults (8 / 10) rows2)
      | .err _ => .error e
    else .error e
  | .ok rows =>
    if rows = [] then
      if usedTextFilter then
        match client limit none with
        | .ok rows2 => if rows2 = [] then .ok [] else .ok (scaleResults (9 / 10) rows2)
        | .err e2 =>
          match client limit none with
          | .ok rows3 => if rows3 = [] then .ok [] else .ok (scaleResults (8 / 10) rows3)
          | .err _ => .error e2
      else .ok []
    else .ok (rows.map (fun r => ⟨r, r.score⟩))

/-- A fixed document row with score `1`, used in the hybrid counterexample. -/
def unitScoreRow : MilvusRow :=
  { id := "chunk_fedcba9876543210"
    content := "interface B"
    relativePath := "B.java"
    startLine := 3
    endLine := 4
    fileExtension := ".java"
    language := "java"
    score := 1 }

/-- A client that refuses any filtered search and answers an unfiltered one
with a single row of score `1`. -/
def refusingClient : Nat → Option (List String) → ClientReply :=
  fun _ filterArg =>
    match filterArg with
    | some _ => .err "filtered search refused"
    | none => .ok [unitScoreRow]

/-- C2 counterexample: when the filtered search fails (rather than coming
back empty), the dense-only retry is returned with scores multiplied by
`0.8`, not `0.9` as claimed: the row of score `1` comes back with `4/5`. -/
theorem hybridSearch_failure_scale_counterexample :
    hybridSearch refusingClient true true ["keyword"] 5 (some "q") =
        .ok [⟨unitScoreRow, 4 / 5⟩] ∧
      (4 / 5 : ℚ) ≠ 9 / 10 := by
  have hkw : buildFilterKeywords ["keyword"] = ["keyword"] := by decide
  constructor
  · simp [hybridSearch, refusingClient, jsTruthyStr, jsOrNat, scaleResults, hkw, unitScoreRow]
    norm_num
  · norm_num

/-- C2 amended: with a nonempty text filter in play, a filtered search that
comes back empty is retried without the filter and returned with scores
multiplied by `0.9`; a filtered search that fails is retried without the
filter and returned with scores multiplied by `0.8`. -/
theorem hybridSearch_fallback_scales (client : Nat → Option (List String) → ClientReply)
    (keywords : List String) (topK : Nat) (query : Option String) (rows : List MilvusRow)
    (e : String)
    (hq : jsTruthyStr query = true)
    (hk : buildFilterKeywords keywords ≠ []) :
    (client (jsOrNat topK 10) (some (buildFilterKeywords keywords)) = .ok [] →
      client (jsOrNat topK 10) none = .ok rows → rows ≠ [] →
      hybridSearch client true true keywords topK query =
        .ok (scaleResults (9 / 10) rows)) ∧
    (client (jsOrNat topK 10) (some (buildFilterKeywords keywords)) = .err e →
      client (jsOrNat topK 10) none = .ok rows → rows ≠ [] →
      hybridSearch client true true keywords topK query =
        .ok (scaleResults (8 / 10) rows)) := by
  constructor
  · intro h1 h2 h3
    simp [hybridSearch, hq, hk, h1, h2, h3]
  · intro h1 h2 h3
    simp [hybridSearch, hq, hk, h1, h2, h3]

/-- Witness for the amended C2 theorem at a concrete client. -/
theorem hybridSearch_fallback_scales_witness :
    jsTruthyStr (some "q") = true ∧ buildFilterKeywords ["keyword"] ≠ [] ∧
      ((refusingClient (jsOrNat 5 10) (some (buildFilterKeywords ["keyword"])) = .ok [] →
          refusingClient (jsOrNat 5 10) none = .ok [unitScoreRow] → [unitScoreRow] ≠ [] →
          hybridSearch refusingClient true true ["keyword"] 5 (some "q") =
            .ok (scaleResults (9 / 10) [unitScoreRow])) ∧
        (refusingClient (jsOrNat 5 10) (some (buildFilterKeywords ["keyword"])) =
            .err "filtered search refused" →
          refusingClient (jsOrNat 5 10) none = .ok [unitScoreRow] → [unitScoreRow] ≠ [] →
          hybridSearch refusingClient true true ["keyword"] 5 (some "q") =
            .ok (scaleResults (8 / 10) [unitScoreRow]))) :=
  ⟨by decide, by decide,
    hybridSearch_fallback_scales refusingClient ["keyword"] 5 (some "q") [unitScoreRow]
      "filtered search refused" (by decide) (by decide)⟩

/-! ## The hybrid call-site arity mismatch (C10)

`CodeIndexer.semanticSearch` invokes `this.vectorDatabase.hybridSearch` with
four arguments `(collectionName, query, queryEmbedding.vector,
{ topK, threshold })`, while `MilvusVectorDatabase.hybridSearch` declares
three parameters `(collectionName, queryVector, options)`. JavaScript binds
arguments to parameters positionally and drops extras; the model below is
that binding discipline applied to the transcribed argument and parameter
lists. -/

/-- An untyped JS value, as far as the call site needs distinguishing. -/
inductive JSValue where
  | str (s : String)
  | num (q : ℚ)
  | arr (elems : List JSValue)
  | obj (fields : List (String × JSValue))
  | undef

/-- JS positional parameter binding: each declared parameter takes the
argument at its position, `undefined` when absent; surplus arguments bind to
no parameter. -/
def jsCallBind (params : List String) (args : List JSValue) : List (String × JSValue) :=
  params.zip (args ++ List.replicate params.length JSValue.undef)

/-- The declared parameter list of `MilvusVectorDatabase.hybridSearch`. -/
def milvusHybridSearchParamNames : List String :=
  ["collectionName", "queryVector", "options"]

/-- The argument list `CodeIndexer.semanticSearch` passes to
`vectorDatabase.hybridSearch` on its hybrid branch, in source order. -/
def semanticSearchHybridCallArgs (collectionName query : String) (vector : List ℚ)
    (topK : Nat) (threshold : ℚ) : List JSValue :=
  [JSValue.str collectionName,
   JSValue.str query,
   JSValue.arr (vector.map JSValue.num),
   JSValue.obj [("topK", JSValue.num topK), ("threshold", JSValue.num threshold)]]

/-- C10: under positional binding, the Milvus adapter receives the text query
string as its `queryVector` parameter and the dense embedding vector as its
`options` parameter, while the fourth argument — the object carrying the
caller's `topK` and `threshold` — binds to no parameter at all. -/
theorem hybridCall_binds_query_to_vector (collectionName query : String)
    (vector : List ℚ) (topK : Nat) (threshold : ℚ) :
    jsCallBind milvusHybridSearchParamNames
        (semanticSearchHybridCallArgs collectionName query vector topK threshold) =
      [("collectionName", JSValue.str collectionName),
       ("queryVector", JSValue.str query),
       ("options", JSValue.arr (vector.map JSValue.num))] ∧
      (semanticSearchHybridCallArgs collectionName query vector topK threshold).length =
          4 ∧
      milvusHybridSearchParamNames.length = 3 :=
  ⟨rfl, rfl, rfl⟩

/-! ## Ignore patterns (C8) -/

/-- `DEFAULT_IGNORE_PATTERNS` from `indexer.ts`, in source order. -/
def DEFAULT_IGNORE_PATTERNS : List String :=
  ["node_modules/**", "dist/**", "build/**", "out/**", "target/**", "coverage/**",
   ".nyc_output/**",
   ".vscode/**", ".idea/**", "*.swp", "*.swo",
   ".git/**", ".svn/**", ".hg/**",
   ".cache/**", "__pycache__/**", ".pytest_cache/**",
   "logs/**", "tmp/**", "temp/**", "*.log",
   ".env", ".env.*", "*.local",
   "*.min.js", "*.min.css", "*.min.map", "*.bundle.js", "*.bundle.css",
   "*.chunk.js", "*.vendor.js", "*.polyfills.js", "*.runtime.js", "*.map",
   ".specstory/**", ".star-factory/**", ".cursor/**", "/docs/**", "/test/**",
   ".*/**"]

/-- The `ignorePatterns` field as the `CodeIndexer` constructor sets it:
`config.ignorePatterns || DEFAULT_IGNORE_PATTERNS` — a supplied list
replaces the defaults outright (`none` models an absent field). -/
def constructorIgnorePatterns (userPatterns : Option (List String)) : List String :=
  match userPatterns with
  | some l => l
  | none => DEFAULT_IGNORE_PATTERNS

/-- `CodeIndexer.updateIgnorePatterns`: concatenate the defaults with the
user patterns and spread through `new Set` to drop duplicates. -/
def updateIgnorePatterns (userPatterns : List String) : List String :=
  jsSetDedup (DEFAULT_IGNORE_PATTERNS ++ userPatterns)

/-- C8 counterexample: supplying ignore patterns at construction replaces the
default denylist instead of merging with it — with user patterns
`["custom/**"]` the effective list is just that, and the default
`node_modules/**` is absent. -/
theorem constructorIgnorePatterns_counterexample :
    constructorIgnorePatterns (some ["custom/**"]) = ["custom/**"] ∧
      "node_modules/**" ∉ constructorIgnorePatterns (some ["custom/**"]) := by
  constructor
  · rfl
  · decide

theorem jsSetDedup_sound (l : List String) :
    (∀ x, x ∈ jsSetDedup l ↔ x ∈ l) ∧ (jsSetDedup l).Nodup := by
  have key : ∀ (l acc : List String), acc.Nodup →
      (∀ x, x ∈ l.foldl (fun acc x => if x ∈ acc then acc else acc ++ [x]) acc ↔
        x ∈ acc ∨ x ∈ l) ∧
      (l.foldl (fun acc x => if x ∈ acc then acc else acc ++ [x]) acc).Nodup := by
    intro l
    induction l with
    | nil => intro acc hacc; simpa using hacc
    | cons a t ih =>
      intro acc hacc
      simp only [List.foldl_cons]
      by_cases hmem : a ∈ acc
      · rw [if_pos hmem]
        obtain ⟨hiff, hnd⟩ := ih acc hacc
        refine ⟨fun x => ?_, hnd⟩
        rw [hiff x]
        constructor
        · rintro (hx | hx)
          · exact Or.inl hx
          · exact Or.inr (List.mem_cons_of_mem a hx)
        · rintro (hx | hx)
          · exact Or.inl hx
          · rcases List.mem_cons.mp hx with hx | hx
            · exact Or.inl (hx ▸ hmem)
            · exact Or.inr hx
      · rw [if_neg hmem]
        have hacc2 : (acc ++ [a]).Nodup := by
          simp [List.nodup_append, hacc, hmem]
        obtain ⟨hiff, hnd⟩ := ih (acc ++ [a]) hacc2
        refine ⟨fun x => ?_, hnd⟩
        rw [hiff x]
        simp only [List.mem_append, List.mem_singleton, List.mem_cons]
        tauto
  obtain ⟨hiff, hnd⟩ := key l [] List.nodup_nil
  refine ⟨fun x => ?_, hnd⟩
  unfold jsSetDedup
  rw [hiff x]
  simp

/-- C8 amended: the merge-with-defaults-and-dedupe behaviour belongs to
`updateIgnorePatterns`, not to the constructor: its result contains every
default pattern and every user pattern and has no duplicates, while
constructor-supplied patterns replace the defaults outright. -/
theorem updateIgnorePatterns_merges (userPatterns : List String) :
    (∀ d ∈ DEFAULT_IGNORE_PATTERNS, d ∈ updateIgnorePatterns userPatterns) ∧
      (∀ u ∈ userPatterns, u ∈ updateIgnorePatterns userPatterns) ∧
      (updateIgnorePatterns userPatterns).Nodup ∧
      constructorIgnorePatterns (some userPatterns) = userPatterns := by
  obtain ⟨hiff, hnd⟩ := jsSetDedup_sound (DEFAULT_IGNORE_PATTERNS ++ userPatterns)
  refine ⟨fun d hd => ?_, fun u hu => ?_, hnd, rfl⟩
  · exact (hiff d).mpr (List.mem_append_left _ hd)
  · exact (hiff u).mpr (List.mem_append_right _ hu)

/-! ## The streaming pipeline (`CodeIndexer.processFileList`, C5)

A file is modelled by what reading-and-splitting it yields: `none` when the
read or split throws (the file is skipped), `some chunks` otherwise. Whether
the `k`-th call of `processChunkBuffer` throws (embed or insert failure) is
the oracle `batchFail`. The source appends each chunk to the buffer and
increments `totalChunks` immediately; a flush that fails is caught, logged
and the buffer cleared, with no adjustment of `totalChunks`. -/

/-- The mutable state of `processFileList`: the pending chunk buffer, the two
counters the function returns, the chunks successfully embedded-and-inserted
so far, and how many flushes have happened (to index the failure oracle). -/
structure PipelineState where
  buffer : List String
  processedFiles : Nat
  totalChunks : Nat
  persisted : List String
  flushCount : Nat
deriving DecidableEq

/-- The initial pipeline state. -/
def initPipelineState : PipelineState := ⟨[], 0, 0, [], 0⟩

/-- One `processChunkBuffer` call: on success the buffer contents are
embedded and inserted (persisted); on failure they are lost. Either way the
buffer is cleared afterwards. -/
def flushBuffer (batchFail : Nat → Bool) (st : PipelineState) : PipelineState :=
  { st with
    persisted := if batchFail st.flushCount then st.persisted else st.persisted ++ st.buffer
    buffer := []
    flushCount := st.flushCount + 1 }

/-- Append one chunk: push to the buffer, count it in `totalChunks`, and
flush when the buffer has reached the batch size. -/
def pushChunk (batchSize : Nat) (batchFail : Nat → Bool) (st : PipelineState)
    (c : String) : PipelineState :=
  let st1 := { st with buffer := st.buffer ++ [c], totalChunks := st.totalChunks + 1 }
  if batchSize ≤ st1.buffer.length then flushBuffer batchFail st1 else st1

/-- Process one file: a failed read skips the file entirely (not counted in
`processedFiles`); otherwise all its chunks are pushed and the file counted. -/
def processFile (batchSize : Nat) (batchFail : Nat → Bool) (st : PipelineState)
    (file : Option (List String)) : PipelineState :=
  match file with
  | none => st
  | some chunks =>
    let st1 := chunks.foldl (pushChunk batchSize batchFail) st
    { st1 with processedFiles := st1.processedFiles + 1 }

/-- `CodeIndexer.processFileList`: fold over the files, then flush any
remaining buffered chunks. -/
def processFileList (batchSize : Nat) (batchFail : Nat → Bool)
    (files : List (Option (List String))) : PipelineState :=
  let st := files.foldl (processFile batchSize batchFail) initPipelineState
  if st.buffer = [] then st else flushBuffer batchFail st

/-- C5 counterexample: one readable file with one chunk and a failing embed
batch (batch size 1) — the batch is skipped, nothing is persisted, yet the
returned `totalChunks` is `1`, so the count does not reflect successes only. -/
theorem processFileList_counts_failed_batches :
    (processFileList 1 (fun _ => true) [some ["class A"]]).totalChunks = 1 ∧
      (processFileList 1 (fun _ => true) [some ["class A"]]).persisted = [] ∧
      (1 : Nat) ≠ 0 := by
  refine ⟨rfl, rfl, by decide⟩

theorem foldl_preserve {α β : Type} (f : β → α → β) (Q : β → Prop)
    (hf : ∀ b a, Q b → Q (f b a)) :
    ∀ (l : List α) (b : β), Q b → Q (l.foldl f b) := by
  intro l
  induction l with
  | nil => intro b hb; exact hb
  | cons a t ih => intro b hb; exact ih _ (hf b a hb)

theorem flushBuffer_counters (batchFail : Nat → Bool) (st : PipelineState) :
    (flushBuffer batchFail st).totalChunks = st.totalChunks ∧
      (flushBuffer batchFail st).processedFiles = st.processedFiles := ⟨rfl, rfl⟩

theorem pushChunk_totalChunks (batchSize : Nat) (batchFail : Nat → Bool)
    (st : PipelineState) (c : String) :
    (pushChunk batchSize batchFail st c).totalChunks = st.totalChunks + 1 := by
  unfold pushChunk
  dsimp only
  split <;> rfl

theorem foldl_pushChunk_totalChunks (batchSize : Nat) (batchFail : Nat → Bool)
    (chunks : List String) :
    ∀ st : PipelineState,
      (chunks.foldl (pushChunk batchSize batchFail) st).totalChunks =
        st.totalChunks + chunks.length := by
  induction chunks with
  | nil => intro st; rfl
  | cons c t ih =>
    intro st
    rw [List.foldl_cons, ih, pushChunk_totalChunks]
    simp [Nat.add_assoc, Nat.add_comm 1 t.length]

theorem foldl_processFile_totalChunks (batchSize : Nat) (batchFail : Nat → Bool)
    (files : List (Option (List String))) :
    ∀ st : PipelineState,
      (files.foldl (processFile batchSize batchFail) st).totalChunks =
        st.totalChunks + ((files.filterMap id).map List.length).sum := by
  induction files with
  | nil => intro st; simp
  | cons f t ih =>
    intro st
    rw [List.foldl_cons, ih]
    cases f with
    | none => simp [processFile]
    | some chunks =>
      simp [processFile, foldl_pushChunk_totalChunks]
      omega

theorem pushChunk_processedFiles (batchSize : Nat) (batchFail : Nat → Bool)
    (st : PipelineState) (c : String) :
    (pushChunk batchSize batchFail st c).processedFiles = st.processedFiles := by
  unfold pushChunk
  dsimp only
  split <;> rfl

theorem foldl_pushChunk_processedFiles (batchSize : Nat) (batchFail : Nat → Bool)
    (chunks : List String) :
    ∀ st : PipelineState,
      (chunks.foldl (pushChunk batchSize batchFail) st).processedFiles =
        st.processedFiles := by
  induction chunks with
  | nil => intro st; rfl
  | cons c t ih =>
    intro st
    rw [List.foldl_cons, ih, pushChunk_processedFiles]

theorem foldl_processFile_processedFiles (batchSize : Nat) (batchFail : Nat → Bool)
    (files : List (Option (List String))) :
    ∀ st : PipelineState,
      (files.foldl (processFile batchSize batchFail) st).processedFiles =
        st.processedFiles + (files.filterMap id).length := by
  induction files with
  | nil => intro st; simp
  | cons f t ih =>
    intro st
    rw [List.foldl_cons, ih]
    cases f with
    | none => simp [processFile]
    | some chunks =>
      simp [processFile, foldl_pushChunk_processedFiles]
      omega

/-- The persisted chunks never outnumber the counted ones. -/
def pipelineLenInv (st : PipelineState) : Prop :=
  st.persisted.length + st.buffer.length ≤ st.totalChunks

theorem flushBuffer_lenInv (batchFail : Nat → Bool) (st : PipelineState)
    (h : pipelineLenInv st) : pipelineLenInv (flushBuffer batchFail st) := by
  unfold pipelineLenInv flushBuffer at *
  split <;> simp <;> omega

theorem pushChunk_lenInv (batchSize : Nat) (batchFail : Nat → Bool)
    (st : PipelineState) (c : String) (h : pipelineLenInv st) :
    pipelineLenInv (pushChunk batchSize batchFail st c) := by
  unfold pushChunk
  dsimp only
  have h1 : pipelineLenInv
      { st with buffer := st.buffer ++ [c], totalChunks := st.totalChunks + 1 } := by
    unfold pipelineLenInv at *
    simp
    omega
  split
  · exact flushBuffer_lenInv _ _ h1
  · exact h1

theorem processFile_lenInv (batchSize : Nat) (batchFail : Nat → Bool)
    (st : PipelineState) (file : Option (List String)) (h : pipelineLenInv st) :
    pipelineLenInv (processFile batchSize batchFail st file) := by
  cases file with
  | none => exact h
  | some chunks =>
    have := foldl_preserve (pushChunk batchSize batchFail) pipelineLenInv
      (fun b a hb => pushChunk_lenInv batchSize batchFail b a hb) chunks st h
    unfold processFile pipelineLenInv at *
    simpa using this

/-- With no batch failure, counted and persisted-plus-buffered agree exactly. -/
def pipelineLenEq (st : PipelineState) : Prop :=
  st.persisted.length + st.buffer.length = st.totalChunks

theorem flushBuffer_lenEq (batchFail : Nat → Bool) (hF : ∀ k, batchFail k = false)
    (st : PipelineState) (h : pipelineLenEq st) : pipelineLenEq (flushBuffer batchFail st) := by
  unfold pipelineLenEq flushBuffer at *
  simp [hF]
  omega

theorem pushChunk_lenEq (batchSize : Nat) (batchFail : Nat → Bool)
    (hF : ∀ k, batchFail k = false) (st : PipelineState) (c : String)
    (h : pipelineLenEq st) : pipelineLenEq (pushChunk batchSize batchFail st c) := by
  unfold pushChunk
  dsimp only
  have h1 : pipelineLenEq
      { st with buffer := st.buffer ++ [c], totalChunks := st.totalChunks + 1 } := by
    unfold pipelineLenEq at *
    simp
    omega
  split
  · exact flushBuffer_lenEq _ hF _ h1
  · exact h1

theorem processFile_lenEq (batchSize : Nat) (batchFail : Nat → Bool)
    (hF : ∀ k, batchFail k = false) (st : PipelineState) (file : Option (List String))
    (h : pipelineLenEq st) : pipelineLenEq (processFile batchSize batchFail st file) := by
  cases file with
  | none => exact h
  | some chunks =>
    have := foldl_preserve (pushChunk batchSize batchFail) pipelineLenEq
      (fun b a hb => pushChunk_lenEq batchSize batchFail hF b a hb) chunks st h
    unfold processFile pipelineLenEq at *
    simpa using this

/-- C5 amended: `totalChunks` counts every chunk produced from successfully
read files, whether or not its batch later failed to embed or insert;
`processedFiles` counts the successfully read files; the persisted chunks
never exceed `totalChunks`, with equality exactly guaranteed when no batch
fails. -/
theorem processFileList_counts (batchSize : Nat) (batchFail : Nat → Bool)
    (files : List (Option (List String))) :
    (processFileList batchSize batchFail files).totalChunks =
        ((files.filterMap id).map List.length).sum ∧
      (processFileList batchSize batchFail files).processedFiles =
        (files.filterMap id).length ∧
      (processFileList batchSize batchFail files).persisted.length ≤
        (processFileList batchSize batchFail files).totalChunks ∧
      ((∀ k, batchFail k = false) →
        (processFileList batchSize batchFail files).persisted.length =
          (processFileList batchSize batchFail files).totalChunks) := by
  unfold processFileList
  dsimp only
  have hfoldTotal := foldl_processFile_totalChunks batchSize batchFail files initPipelineState
  have hfoldFiles := foldl_processFile_processedFiles batchSize batchFail files initPipelineState
  have hinv : pipelineLenInv (files.foldl (processFile batchSize batchFail) initPipelineState) :=
    foldl_preserve (processFile batchSize batchFail) pipelineLenInv
      (fun b a hb => processFile_lenInv batchSize batchFail b a hb) files initPipelineState
      (by simp [pipelineLenInv, initPipelineState])
  set st := files.foldl (processFile batchSize batchFail) initPipelineState with hst
  refine ⟨?_, ?_, ?_, ?_⟩
  · split
    · simpa [initPipelineState] using hfoldTotal
    · simpa [flushBuffer, initPipelineState] using hfoldTotal
  · split
    · simpa [initPipelineState] using hfoldFiles
    · simpa [flushBuffer, initPipelineState] using hfoldFiles
  · unfold pipelineLenInv at hinv
    split
    · next hbuf => simpa [hbuf] using hinv
    · next hbuf =>
      unfold flushBuffer
      split <;> simp <;> omega
  · intro hF
    have heq : pipelineLenEq st :=
      foldl_preserve (processFile batchSize batchFail) pipelineLenEq
        (fun b a hb => processFile_lenEq batchSize batchFail hF b a hb) files initPipelineState
        (by simp [pipelineLenEq, initPipelineState])
    unfold pipelineLenEq at heq
    split
    · next hbuf => simpa [hbuf] using heq
    · next hbuf =>
      unfold flushBuffer
      simp [hF]
      omega

/-! ## Progress reporting (C6)

The percentage values passed to the progress callback, in call order, for a
run in which every file is read successfully (a failed read only omits one
callback, which cannot raise any value). `Math.round` of the JS double is
modelled as `⌊q + 1/2⌋` on rationals. -/

/-- JS `Math.round`: round half toward positive infinity, that is
`⌊q + 1/2⌋`, written out on numerator and denominator so that it computes by
kernel reduction. -/
def jsRound (q : ℚ) : ℤ := (q + 1 / 2).num / ((q + 1 / 2).den : ℤ)

theorem jsRound_eq_floor (q : ℚ) : jsRound q = ⌊q + 1 / 2⌋ := by
  rw [Rat.floor_def]
  rfl

/-- The percentage trace of `indexCodebase` over `n` files: `0` (prepare),
`5` (scan), then `Math.round(10 + (fileIndex / totalFiles) * 90)` for
`fileIndex = 1..n`, then the final `100`; an empty scan short-circuits to
`0, 5, 100`. -/
def indexCodebaseProgress (n : Nat) : List ℤ :=
  if n = 0 then [0, 5, 100]
  else 0 :: 5 ::
    ((List.range n).map (fun i : Nat => jsRound (10 + (((i : ℚ) + 1) / (n : ℚ)) * 90))
      ++ [100])

/-- The percentage trace of `reindexByChange` on a delta of sizes
`(added, removed, modified)`: `0` (check), then one `updateProgress` per
removed file, per modified file (old-chunk deletion), and per re-indexed
file (`added ++ modified`), each reporting
`Math.round(processedChanges / totalChanges * 100)` with `totalChanges =
added + removed + modified`, then the final `100`; an empty delta
short-circuits to `0, 100`. -/
def reindexProgress (added removed modified : Nat) : List ℤ :=
  let total := added + removed + modified
  if total = 0 then [0, 100]
  else 0 ::
    ((List.range (removed + modified + (added + modified))).map
        (fun j : Nat => jsRound ((((j : ℚ) + 1) / (total : ℚ)) * 100)) ++ [100])

/-- C6 counterexample: one modified file (no additions, no removals). The
file is counted once in `totalChanges` but reported twice (old-chunk
deletion, then re-index), so the trace is `0, 100, 200, 100`: the value
`200` exceeds 100, and the final report drops from `200` back to `100`. -/
theorem reindexProgress_exceeds_100 :
    reindexProgress 0 0 1 = [0, 100, 200, 100] ∧ ¬ ((200 : ℤ) ≤ 100) := by
  constructor
  · unfold reindexProgress
    norm_num [List.range_succ, jsRound_eq_floor]
  · decide

theorem jsRound_le_of_le (q : ℚ) (b : ℤ) (h : q ≤ b) : jsRound q ≤ b := by
  rw [jsRound_eq_floor, Int.floor_le_iff]
  linarith

theorem le_jsRound_of_le (q : ℚ) (b : ℤ) (h : (b : ℚ) ≤ q) : b ≤ jsRound q := by
  rw [jsRound_eq_floor, Int.le_floor]
  linarith

theorem le_jsRound_of_le_half (q : ℚ) (b : ℤ) (h : (b : ℚ) ≤ q + 1 / 2) : b ≤ jsRound q := by
  rw [jsRound_eq_floor, Int.le_floor]
  linarith

theorem jsRound_mono (q q' : ℚ) (h : q ≤ q') : jsRound q ≤ jsRound q' := by
  rw [jsRound_eq_floor, jsRound_eq_floor]
  exact Int.floor_le_floor (by linarith)

theorem chain_le_map_range (f : Nat → ℤ) (n : Nat)
    (hf : ∀ i, i + 1 < n → f i ≤ f (i + 1)) :
    List.Chain' (· ≤ ·) ((List.range n).map f) := by
  rw [List.chain'_map]
  cases n with
  | zero => simp
  | succ m =>
    rw [List.chain'_range_succ]
    intro i hi
    exact hf i (by omega)

theorem head_map_range (f : Nat → ℤ) (m : Nat) :
    (((List.range (m + 1)).map f)).head? = some (f 0) := by
  rw [List.range_succ_eq_map]
  rfl

theorem getLast_map_range (f : Nat → ℤ) (m : Nat) :
    (((List.range (m + 1)).map f)).getLast? = some (f m) := by
  rw [List.range_succ, List.map_append]
  simp

/-- C6, `indexCodebase` half: every reported percentage is in `[0, 100]` and
the trace is monotonically non-decreasing. -/
theorem indexCodebaseProgress_ok (n : Nat) :
    (∀ p ∈ indexCodebaseProgress n, 0 ≤ p ∧ p ≤ 100) ∧
      List.Chain' (· ≤ ·) (indexCodebaseProgress n) := by
  unfold indexCodebaseProgress
  by_cases hn : n = 0
  · subst hn
    refine ⟨?_, ?_⟩ <;> simp
  rw [if_neg hn]
  have hn1 : (1 : ℚ) ≤ n := by
    have : 1 ≤ n := Nat.one_le_iff_ne_zero.mpr hn
    exact_mod_cast this
  have hnpos : (0 : ℚ) < n := by linarith
  have hbound : ∀ i, i < n → 0 ≤ jsRound (10 + ((i + 1 : ℚ) / n) * 90) ∧
      jsRound (10 + ((i + 1 : ℚ) / n) * 90) ≤ 100 := by
    intro i hi
    have hfrac0 : (0 : ℚ) ≤ (i + 1 : ℚ) / n := by positivity
    have hfrac1 : ((i + 1 : ℚ) / n) ≤ 1 := by
      rw [div_le_one hnpos]
      have : (i : ℚ) + 1 ≤ n := by exact_mod_cast Nat.succ_le_of_lt hi
      linarith
    constructor
    · exact le_jsRound_of_le _ 0 (by push_cast; linarith)
    · exact jsRound_le_of_le _ 100 (by push_cast; linarith)
  constructor
  · intro p hp
    simp only [List.mem_cons, List.mem_append, List.mem_map, List.mem_range] at hp
    rcases hp with rfl | hp
    · exact ⟨le_refl 0, by norm_num⟩
    rcases hp with rfl | hp
    · norm_num
    rcases hp with ⟨i, hi, rfl⟩ | hp
    · exact hbound i hi
    rcases hp with rfl | hp
    · norm_num
    · simp at hp
  · rw [List.chain'_cons']
    refine ⟨?_, ?_⟩
    · intro y hy
      simp only [List.head?_cons, Option.mem_def, Option.some_inj] at hy
      omega
    rw [List.chain'_cons']
    obtain ⟨m, rfl⟩ := Nat.exists_eq_succ_of_ne_zero hn
    refine ⟨?_, ?_⟩
    · intro y hy
      rw [List.head?_append, head_map_range] at hy
      simp only [Option.or_some, Option.mem_def, Option.some_inj] at hy
      subst hy
      refine le_trans (by norm_num) (le_jsRound_of_le _ 10 ?_)
      push_cast
      have : (0 : ℚ) ≤ (0 + 1 : ℚ) / (m + 1) * 90 := by positivity
      linarith
    · rw [List.chain'_append]
      refine ⟨?_, by simp, ?_⟩
      · apply chain_le_map_range
        intro i hi
        apply jsRound_mono
        push_cast
        gcongr
        linarith
      · intro x hx y hy
        rw [getLast_map_range] at hx
        simp only [Option.mem_def, Option.some_inj] at hx hy
        subst hx
        simp only [List.head?_cons, Option.some_inj] at hy
        subst hy
        exact (hbound m (by omega)).2

theorem reindexValue_nonneg (total j : Nat) :
    0 ≤ jsRound (((j : ℚ) + 1) / (total : ℚ) * 100) := by
  apply le_jsRound_of_le
  have h : (0 : ℚ) ≤ ((j : ℚ) + 1) / (total : ℚ) * 100 := by positivity
  push_cast
  linarith

theorem reindexValue_le_100 (total j : Nat) (hT : total ≠ 0) (hj : j + 1 ≤ total) :
    jsRound (((j : ℚ) + 1) / (total : ℚ) * 100) ≤ 100 := by
  apply jsRound_le_of_le
  have hTpos : (0 : ℚ) < total := by exact_mod_cast Nat.pos_of_ne_zero hT
  have hfrac : ((j : ℚ) + 1) / (total : ℚ) ≤ 1 := by
    rw [div_le_one hTpos]
    exact_mod_cast hj
  have h100 := mul_le_mul_of_nonneg_right hfrac (by norm_num : (0 : ℚ) ≤ 100)
  push_cast
  linarith

theorem reindexValue_mono (total j : Nat) :
    jsRound (((j : ℚ) + 1) / (total : ℚ) * 100) ≤
      jsRound ((((j + 1 : Nat) : ℚ) + 1) / (total : ℚ) * 100) := by
  apply jsRound_mono
  rcases Nat.eq_zero_or_pos total with h0 | hpos
  · subst h0
    push_cast
    simp
  have hTpos : (0 : ℚ) < total := by exact_mod_cast hpos
  push_cast
  gcongr
  linarith

theorem reindexProgress_ok_no_modified (added removed : Nat) :
    (∀ p ∈ reindexProgress added removed 0, 0 ≤ p ∧ p ≤ 100) ∧
      List.Chain' (· ≤ ·) (reindexProgress added removed 0) := by
  unfold reindexProgress
  dsimp only
  by_cases h0 : added + removed + 0 = 0
  · rw [if_pos h0]
    refine ⟨?_, ?_⟩ <;> simp
  rw [if_neg h0]
  have hcount : removed + 0 + (added + 0) = added + removed + 0 := by omega
  have hbound : ∀ j, j < removed + 0 + (added + 0) →
      0 ≤ jsRound (((j : ℚ) + 1) / ((added + removed + 0 : Nat) : ℚ) * 100) ∧
        jsRound (((j : ℚ) + 1) / ((added + removed + 0 : Nat) : ℚ) * 100) ≤ 100 := by
    intro j hj
    exact ⟨reindexValue_nonneg _ j, reindexValue_le_100 _ j h0 (by omega)⟩
  constructor
  · intro p hp
    simp only [List.mem_cons, List.mem_append, List.mem_map, List.mem_range] at hp
    rcases hp with rfl | hp
    · norm_num
    rcases hp with ⟨j, hj, rfl⟩ | hp
    · exact hbound j hj
    rcases hp with rfl | hp
    · norm_num
    · simp at hp
  · rw [List.chain'_cons']
    refine ⟨?_, ?_⟩
    · intro y hy
      obtain ⟨c, hc⟩ : ∃ c, removed + 0 + (added + 0) = c + 1 :=
        Nat.exists_eq_succ_of_ne_zero (by omega)
      rw [hc, List.head?_append, head_map_range] at hy
      simp only [Option.or_some, Option.mem_def, Option.some_inj] at hy
      subst hy
      exact reindexValue_nonneg _ 0
    · rw [List.chain'_append]
      refine ⟨?_, by simp, ?_⟩
      · apply chain_le_map_range
        intro j hj
        exact_mod_cast reindexValue_mono (added + removed + 0) j
      · intro x hx y hy
        obtain ⟨c, hc⟩ : ∃ c, removed + 0 + (added + 0) = c + 1 :=
          Nat.exists_eq_succ_of_ne_zero (by omega)
        rw [hc, getLast_map_range] at hx
        simp only [Option.mem_def, Option.some_inj] at hx hy
        subst hx
        simp only [List.head?_cons, Option.some_inj] at hy
        subst hy
        exact (hbound c (by omega)).2

theorem reindexProgress_chain_upto_final (added removed modified : Nat) :
    List.Chain' (· ≤ ·) (reindexProgress added removed modified).dropLast := by
  unfold reindexProgress
  dsimp only
  by_cases h0 : added + removed + modified = 0
  · rw [if_pos h0]
    simp
  rw [if_neg h0]
  rw [show (0 : ℤ) ::
      ((List.range (removed + modified + (added + modified))).map
          (fun j : Nat =>
            jsRound (((j : ℚ) + 1) / ((added + removed + modified : Nat) : ℚ) * 100))
        ++ [100]) =
      ((0 : ℤ) ::
        (List.range (removed + modified + (added + modified))).map
          (fun j : Nat =>
            jsRound (((j : ℚ) + 1) / ((added + removed + modified : Nat) : ℚ) * 100)))
        ++ [100] from rfl]
  rw [List.dropLast_concat]
  rw [List.chain'_cons']
  refine ⟨?_, ?_⟩
  · intro y hy
    cases hcnt : removed + modified + (added + modified) with
    | zero =>
      rw [hcnt] at hy
      simp at hy
    | succ c =>
      rw [hcnt, head_map_range] at hy
      simp only [Option.mem_def, Option.some_inj] at hy
      subst hy
      exact reindexValue_nonneg _ 0
  · apply chain_le_map_range
    intro j hj
    exact_mod_cast reindexValue_mono (added + removed + modified) j

theorem reindexProgress_exceeds (added removed modified : Nat)
    (hm : 1 ≤ modified) (hle : added + removed ≤ 199 * modified) :
    ∃ p ∈ reindexProgress added removed modified, 100 < p := by
  have h0 : added + removed + modified ≠ 0 := by omega
  have hcnt1 : 1 ≤ removed + modified + (added + modified) := by omega
  refine ⟨jsRound ((((removed + modified + (added + modified) - 1 : Nat) : ℚ) + 1) /
      ((added + removed + modified : Nat) : ℚ) * 100), ?_, ?_⟩
  · unfold reindexProgress
    dsimp only
    rw [if_neg h0]
    simp only [List.mem_cons, List.mem_append, List.mem_map, List.mem_range]
    right
    left
    exact ⟨removed + modified + (added + modified) - 1, by omega, rfl⟩
  · have hTpos : (0 : ℚ) < ((added + removed + modified : Nat) : ℚ) := by
      exact_mod_cast Nat.pos_of_ne_zero h0
    have hcast : (((removed + modified + (added + modified) - 1 : Nat) : ℚ) + 1) =
        ((removed + modified + (added + modified) : Nat) : ℚ) := by
      push_cast [hcnt1]
      ring
    rw [hcast]
    have hkey : (201 : ℚ) * ((added + removed + modified : Nat) : ℚ) ≤
        200 * ((removed + modified + (added + modified) : Nat) : ℚ) := by
      have : 201 * (added + removed + modified) ≤
          200 * (removed + modified + (added + modified)) := by omega
      exact_mod_cast this
    have h3 : (201 : ℚ) / 2 ≤
        100 * ((removed + modified + (added + modified) : Nat) : ℚ) /
          ((added + removed + modified : Nat) : ℚ) := by
      rw [div_le_div_iff (by norm_num) hTpos]
      linarith
    have hform : ((removed + modified + (added + modified) : Nat) : ℚ) /
          ((added + removed + modified : Nat) : ℚ) * 100 =
        100 * ((removed + modified + (added + modified) : Nat) : ℚ) /
          ((added + removed + modified : Nat) : ℚ) := by
      ring
    have : (101 : ℤ) ≤ jsRound (((removed + modified + (added + modified) : Nat) : ℚ) /
        ((added + removed + modified : Nat) : ℚ) * 100) := by
      apply le_jsRound_of_le_half
      rw [hform]
      push_cast at h3 ⊢
      linarith
    omega

/-- C6 amended: in `indexCodebase` every reported percentage is in `[0, 100]`
and the sequence is monotonically non-decreasing, and likewise in
`reindexByChange` when there are no modified files. But `reindexByChange`
counts each modified file twice (old-chunk deletion, then re-index) against a
denominator that counts it once: the reports before the final one are still
non-decreasing, but with `modified ≥ 1` and `added + removed ≤ 199·modified`
some reported percentage exceeds 100 (and the final `100` report is then a
decrease). -/
theorem progress_percentages_amended (n added removed modified : Nat) :
    ((∀ p ∈ indexCodebaseProgress n, 0 ≤ p ∧ p ≤ 100) ∧
        List.Chain' (· ≤ ·) (indexCodebaseProgress n)) ∧
      ((∀ p ∈ reindexProgress added removed 0, 0 ≤ p ∧ p ≤ 100) ∧
        List.Chain' (· ≤ ·) (reindexProgress added removed 0)) ∧
      List.Chain' (· ≤ ·) (reindexProgress added removed modified).dropLast ∧
      (1 ≤ modified → added + removed ≤ 199 * modified →
        ∃ p ∈ reindexProgress added removed modified, 100 < p) :=
  ⟨indexCodebaseProgress_ok n, reindexProgress_ok_no_modified added removed,
    reindexProgress_chain_upto_final added removed modified,
    fun hm hle => reindexProgress_exceeds added removed modified hm hle⟩

/-- Witness for the amended C6 theorem: one modified file, nothing else. -/
theorem progress_percentages_amended_witness :
    1 ≤ 1 ∧ 0 + 0 ≤ 199 * 1 ∧ (∃ p ∈ reindexProgress 0 0 1, 100 < p) :=
  ⟨by decide, by decide,
    (progress_percentages_amended 1 0 0 1).2.2.2 (by decide) (by decide)⟩

/-- Witness for the amended C8 theorem at a concrete user pattern list. -/
theorem updateIgnorePatterns_merges_witness :
    "node_modules/**" ∈ DEFAULT_IGNORE_PATTERNS ∧
      "custom/**" ∈ (["custom/**"] : List String) ∧
      "node_modules/**" ∈ updateIgnorePatterns ["custom/**"] ∧
      "custom/**" ∈ updateIgnorePatterns ["custom/**"] :=
  ⟨by decide, by decide,
    (updateIgnorePatterns_merges ["custom/**"]).1 _ (by decide),
    (updateIgnorePatterns_merges ["custom/**"]).2.1 _ (by decide)⟩

/-- Witness for the amended C5 theorem: two files (three chunks, one failed
read in between), batch size 2, no batch failures — everything persists. -/
theorem processFileList_counts_witness :
    (∀ k : Nat, (fun _ : Nat => false) k = false) ∧
      (processFileList 2 (fun _ => false)
          [some ["a", "b"], none, some ["c"]]).persisted.length =
        (processFileList 2 (fun _ => false)
          [some ["a", "b"], none, some ["c"]]).totalChunks :=
  ⟨fun _ => rfl,
    (processFileList_counts 2 (fun _ => false)
      [some ["a", "b"], none, some ["c"]]).2.2.2 (fun _ => rfl)⟩

/-! ## `reindexByChange` and `deleteFileChunks` (C4)

The synchronizer delta `(added, removed, modified)` is an oracle input (the
synchronizer itself lives outside the vector-store logic under test). The
vector database is a list of stored documents; `query` with the filter
`relativePath == "p"` and output field `id` returns the matching ids, and
`delete` removes the documents whose primary key is among the given ids. -/

/-- A stored vector document, reduced to the fields the deletion path uses. -/
structure StoredDoc where
  id : String
  relativePath : String
deriving DecidableEq

/-- Milvus `delete` with filter `id in [...]`: drop every document whose id
is among `ids`. -/
def deleteByIds (db : List StoredDoc) (ids : List String) : List StoredDoc :=
  db.filter (fun d => !(decide (d.id ∈ ids)))

/-- `CodeIndexer.deleteFileChunks`: query the ids of the documents whose
`relativePath` equals the given path, drop falsy (empty) ids, and bulk-delete
by id; no-op when either list comes back empty. -/
def deleteFileChunks (db : List StoredDoc) (relativePath : String) : List StoredDoc :=
  let results := (db.filter (fun d => d.relativePath == relativePath)).map (fun d => d.id)
  if 0 < results.length then
    let ids := results.filter (fun i => i != "")
    if 0 < ids.length then deleteByIds db ids else db
  else db

/-- What `reindexByChange` produces around its oracles: the database after
the delete phase, the file list handed to the indexing pipeline, and the
returned counts. -/
structure ReindexOutcome where
  db : List StoredDoc
  filesToIndex : List String
  counts : Nat × Nat × Nat
deriving DecidableEq

/-- `path.join(codebasePath, f)`, for the forward-slash paths used here. -/
def pathJoin (base rel : String) : String := base ++ "/" ++ rel

/-- `CodeIndexer.reindexByChange`: an empty delta returns immediately;
otherwise delete the chunks of every removed file, then of every modified
file, re-run the pipeline on `added ++ modified` (joined onto the codebase
path), and return the three delta sizes. -/
def reindexByChange (db : List StoredDoc) (codebasePath : String)
    (added removed modified : List String) : ReindexOutcome :=
  if added.length + removed.length + modified.length = 0 then ⟨db, [], (0, 0, 0)⟩
  else
    { db := (removed ++ modified).foldl deleteFileChunks db
      filesToIndex := (added ++ modified).map (pathJoin codebasePath)
      counts := (added.length, removed.length, modified.length) }

theorem deleteFileChunks_subset (db : List StoredDoc) (p : String) :
    ∀ d ∈ deleteFileChunks db p, d ∈ db := by
  intro d hd
  unfold deleteFileChunks deleteByIds at hd
  dsimp only at hd
  split at hd
  · split at hd
    · exact (List.mem_filter.mp hd).1
    · exact hd
  · exact hd

theorem deleteFileChunks_removes (db : List StoredDoc) (p : String)
    (hids : ∀ d ∈ db, d.id ≠ "") :
    ∀ d ∈ deleteFileChunks db p, d.relativePath ≠ p := by
  intro d hd heq
  have hdb : d ∈ db := deleteFileChunks_subset db p d hd
  have hresmem : d.id ∈ (db.filter (fun x => x.relativePath == p)).map (fun x => x.id) :=
    List.mem_map.mpr ⟨d, List.mem_filter.mpr ⟨hdb, by simp [heq]⟩, rfl⟩
  have hlen : 0 < ((db.filter (fun x => x.relativePath == p)).map (fun x => x.id)).length :=
    List.length_pos.mpr (List.ne_nil_of_mem hresmem)
  have hidne : d.id ≠ "" := hids d hdb
  have hidsmem : d.id ∈ ((db.filter (fun x => x.relativePath == p)).map
      (fun x => x.id)).filter (fun i => i != "") :=
    List.mem_filter.mpr ⟨hresmem, by simpa using hidne⟩
  have hlen2 : 0 < (((db.filter (fun x => x.relativePath == p)).map
      (fun x => x.id)).filter (fun i => i != "")).length :=
    List.length_pos.mpr (List.ne_nil_of_mem hidsmem)
  unfold deleteFileChunks at hd
  dsimp only at hd
  rw [if_pos hlen, if_pos hlen2] at hd
  unfold deleteByIds at hd
  have hnot := (List.mem_filter.mp hd).2
  simp only [Bool.not_eq_true', decide_eq_false_iff_not] at hnot
  exact hnot hidsmem

theorem foldl_deleteFileChunks_subset (paths : List String) :
    ∀ (db : List StoredDoc), ∀ d ∈ paths.foldl deleteFileChunks db, d ∈ db := by
  induction paths with
  | nil => intro db d hd; exact hd
  | cons q rest ih =>
    intro db d hd
    rw [List.foldl_cons] at hd
    exact deleteFileChunks_subset db q d (ih (deleteFileChunks db q) d hd)

theorem foldl_deleteFileChunks_removes (paths : List String) :
    ∀ (db : List StoredDoc), (∀ d ∈ db, d.id ≠ "") →
      ∀ p ∈ paths, ∀ d ∈ paths.foldl deleteFileChunks db, d.relativePath ≠ p := by
  induction paths with
  | nil => intro db _ p hp; exact absurd hp (List.not_mem_nil p)
  | cons q rest ih =>
    intro db hids p hp d hd
    rw [List.foldl_cons] at hd
    have hids1 : ∀ d ∈ deleteFileChunks db q, d.id ≠ "" :=
      fun x hx => hids x (deleteFileChunks_subset db q x hx)
    rcases List.mem_cons.mp hp with rfl | hp
    · exact deleteFileChunks_removes db p hids d
        (foldl_deleteFileChunks_subset rest (deleteFileChunks db p) d hd)
    · exact ih (deleteFileChunks db q) hids1 p hp d hd

/-- C4: provided every stored document id is nonempty (as every id this
pipeline writes is, being `chunk_` plus 16 hex digits), `reindexByChange`
(1) deletes, via query-ids-then-bulk-delete, every stored vector whose
`relativePath` is among the removed or modified paths, (2) hands the indexing
pipeline exactly the added and modified files, and (3) returns the sizes of
the three delta sets. -/
theorem reindexByChange_spec (db : List StoredDoc) (codebasePath : String)
    (added removed modified : List String)
    (hids : ∀ d ∈ db, d.id ≠ "") :
    (∀ d ∈ (reindexByChange db codebasePath added removed modified).db,
        d.relativePath ∉ removed ∧ d.relativePath ∉ modified) ∧
      (reindexByChange db codebasePath added removed modified).filesToIndex =
        (added ++ modified).map (pathJoin codebasePath) ∧
      (reindexByChange db codebasePath added removed modified).counts =
        (added.length, removed.length, modified.length) := by
  unfold reindexByChange
  split
  · next hz =>
    have ha : added = [] := List.eq_nil_of_length_eq_zero (by omega)
    have hr : removed = [] := List.eq_nil_of_length_eq_zero (by omega)
    have hm : modified = [] := List.eq_nil_of_length_eq_zero (by omega)
    subst ha; subst hr; subst hm
    refine ⟨fun d _ => ⟨List.not_mem_nil d.relativePath, List.not_mem_nil d.relativePath⟩,
      rfl, rfl⟩
  · refine ⟨fun d hd => ⟨?_, ?_⟩, rfl, rfl⟩
    · intro hp
      exact foldl_deleteFileChunks_removes (removed ++ modified) db hids d.relativePath
        (List.mem_append_left _ hp) d hd rfl
    · intro hp
      exact foldl_deleteFileChunks_removes (removed ++ modified) db hids d.relativePath
        (List.mem_append_right _ hp) d hd rfl

/-- Witness for C4: one stored chunk of `x.txt`, with `x.txt` removed. -/
theorem reindexByChange_spec_witness :
    (∀ d ∈ [StoredDoc.mk "chunk_1" "x.txt"], d.id ≠ "") ∧
      ((∀ d ∈ (reindexByChange [StoredDoc.mk "chunk_1" "x.txt"] "/c" [] ["x.txt"] []).db,
          d.relativePath ∉ ["x.txt"] ∧ d.relativePath ∉ ([] : List String)) ∧
        (reindexByChange [StoredDoc.mk "chunk_1" "x.txt"] "/c" [] ["x.txt"] []).filesToIndex =
          (([] : List String) ++ []).map (pathJoin "/c") ∧
        (reindexByChange [StoredDoc.mk "chunk_1" "x.txt"] "/c" [] ["x.txt"] []).counts =
          (0, 1, 0)) :=
  ⟨by decide, reindexByChange_spec [StoredDoc.mk "chunk_1" "x.txt"] "/c" [] ["x.txt"] []
    (by decide)⟩

/-! ## Leading-comment extension (`EnhancedAstSplitter`, C9)

`enhanceChunksWithComments` scans upward from the line above each chunk. The
loop state is `(lineIndex, inComment, foundCommentStart, commentStartLine)`;
the model recurses on `lineIndex + 1` so that reaching `0` is the loop
falling off the top of the file. `codeLines[lineIndex].trim()` is
`(lines.getD i "").trim` (an out-of-range read is treated as a blank line;
the source would throw there, but the scan never leaves the file when the
chunk's start line is within it). -/

/-- `String.trim` written over the character list, so that it evaluates by
kernel reduction (drop leading and trailing whitespace). -/
def jsTrim (s : String) : String :=
  String.mk (((s.data.dropWhile Char.isWhitespace).reverse.dropWhile
    Char.isWhitespace).reverse)

/-- `String.prototype.startsWith`, over character lists. -/
def jsStartsWith (s p : String) : Bool := p.data.isPrefixOf s.data

/-- `String.prototype.endsWith`, over character lists. -/
def jsEndsWith (s p : String) : Bool := p.data.reverse.isPrefixOf s.data.reverse

/-- Split a character list at every occurrence of `c` (JS `split`). -/
def splitOnChar (c : Char) : List Char → List (List Char)
  | [] => [[]]
  | x :: rest =>
    if x = c then [] :: splitOnChar c rest
    else
      match splitOnChar c rest with
      | [] => [[x]]
      | h :: t => (x :: h) :: t

/-- JS `fullCode.split('\n')`. -/
def jsSplitNewline (s : String) : List String :=
  (splitOnChar (Char.ofNat 10) s.data).map String.mk

/-- The trimmed text of a 0-based line. -/
def lineAt (lines : List String) (i : Nat) : String := jsTrim (lines.getD i "")

/-- What the upward scan reports: whether a comment was found and the 1-based
line where the attached comment starts. -/
structure ScanResult where
  found : Bool
  commentStart : Nat
deriving DecidableEq

/-- The upward scan of `enhanceChunksWithComments`, transcribed branch by
branch: blank lines break only when a comment was found while not
`inComment`; a non-comment-shaped line breaks when not `inComment`; `/**` and
`/*` record the comment start and break; a `*/` suffix or `*` prefix enters
comment context and continues; `//` marks a comment found, records its line
when first entering comment context, and continues; anything else breaks. -/
def scanUp (lines : List String) : Nat → Bool → Bool → Nat → ScanResult
  | 0, _, fcs, cs => ⟨fcs, cs⟩
  | i + 1, inC, fcs, cs =>
    if lineAt lines i = "" then
      if inC = false ∧ fcs = true then ⟨fcs, cs⟩
      else scanUp lines i inC fcs cs
    else if inC = false ∧ jsStartsWith (lineAt lines i) "//" = false ∧
        jsStartsWith (lineAt lines i) "/*" = false ∧
        jsStartsWith (lineAt lines i) "*" = false ∧
        jsEndsWith (lineAt lines i) "*/" = false then ⟨fcs, cs⟩
    else if jsStartsWith (lineAt lines i) "/**" = true then ⟨true, i + 1⟩
    else if jsStartsWith (lineAt lines i) "/*" = true then ⟨true, i + 1⟩
    else if jsEndsWith (lineAt lines i) "*/" = true then scanUp lines i true fcs cs
    else if jsStartsWith (lineAt lines i) "*" = true then scanUp lines i true fcs cs
    else if jsStartsWith (lineAt lines i) "//" = true then
      scanUp lines i true true (if inC = false then i + 1 else cs)
    else ⟨fcs, cs⟩

/-- The scan as the specification words it for blank lines outside a block
comment: identical to `scanUp` except that a blank line always continues the
scan. Stated separately so the two can be compared. -/
def scanUpAmended (lines : List String) : Nat → Bool → Bool → Nat → ScanResult
  | 0, _, fcs, cs => ⟨fcs, cs⟩
  | i + 1, inC, fcs, cs =>
    if lineAt lines i = "" then
      scanUpAmended lines i inC fcs cs
    else if inC = false ∧ jsStartsWith (lineAt lines i) "//" = false ∧
        jsStartsWith (lineAt lines i) "/*" = false ∧
        jsStartsWith (lineAt lines i) "*" = false ∧
        jsEndsWith (lineAt lines i) "*/" = false then ⟨fcs, cs⟩
    else if jsStartsWith (lineAt lines i) "/**" = true then ⟨true, i + 1⟩
    else if jsStartsWith (lineAt lines i) "/*" = true then ⟨true, i + 1⟩
    else if jsEndsWith (lineAt lines i) "*/" = true then scanUpAmended lines i true fcs cs
    else if jsStartsWith (lineAt lines i) "*" = true then scanUpAmended lines i true fcs cs
    else if jsStartsWith (lineAt lines i) "//" = true then
      scanUpAmended lines i true true (if inC = false then i + 1 else cs)
    else ⟨fcs, cs⟩

/-- A code chunk as the enhancer sees it: content plus its (1-based,
possibly-absent-encoded-as-0) line span. -/
structure Chunk where
  content : String
  startLine : Nat
  endLine : Nat
deriving DecidableEq

/-- `'\n'.join` of a line list (`Array.prototype.join`). -/
def joinLines (ls : List String) : String :=
  String.mk (List.intercalate [Char.ofNat 10] (ls.map String.data))

/-- Enhance one chunk: default the line span (`|| 1`, `|| codeLines.length`),
scan upward from the line above the start, and if a comment was found,
re-slice the content from the comment start to the chunk end and move
`startLine` up to the comment start. -/
def enhanceChunk (codeLines : List String) (chunk : Chunk) : Chunk :=
  let startLine := if chunk.startLine = 0 then 1 else chunk.startLine
  let endLine := if chunk.endLine = 0 then codeLines.length else chunk.endLine
  let r := scanUp codeLines (startLine - 1) false false startLine
  if r.found then
    { content := joinLines ((codeLines.drop (r.commentStart - 1)).take
        (endLine - (r.commentStart - 1)))
      startLine := r.commentStart
      endLine := chunk.endLine }
  else chunk

/-- `EnhancedAstSplitter.enhanceChunksWithComments`: split the code on
newlines and enhance each chunk. -/
def enhanceChunksWithComments (chunks : List Chunk) (fullCode : String) : List Chunk :=
  chunks.map (enhanceChunk (jsSplitNewline fullCode))

/-- C9 counterexample: a single-line comment separated from the chunk by one
blank line. The claim says a blank line outside a block comment terminates
the scan, which would leave the chunk at lines 3–3; the code skips the blank
line (no comment has been found yet, so the break condition is false),
attaches the comment, and moves `start_line` to 1. -/
theorem enhance_crosses_blank_counterexample :
    enhanceChunksWithComments [⟨"void m();", 3, 3⟩] "// c\n\nvoid m();" =
        [⟨"// c\n\nvoid m();", 1, 3⟩] ∧
      (1 : Nat) ≠ 3 := by
  constructor
  · decide
  · decide

theorem scanUp_eq_amended (lines : List String) :
    ∀ (i : Nat) (inC fcs : Bool) (cs : Nat), (fcs = true → inC = true) →
      scanUp lines i inC fcs cs = scanUpAmended lines i inC fcs cs := by
  intro i
  induction i with
  | zero => intro inC fcs cs _; rfl
  | succ n ih =>
    intro inC fcs cs hinv
    rw [scanUp, scanUpAmended]
    by_cases h1 : lineAt lines n = ""
    · simp only [if_pos h1]
      have hcond : ¬(inC = false ∧ fcs = true) := by
        rintro ⟨ha, hb⟩
        rw [hinv hb] at ha
        exact Bool.noConfusion ha
      simp only [if_neg hcond]
      exact ih inC fcs cs hinv
    · simp only [if_neg h1]
      by_cases h2 : inC = false ∧ jsStartsWith (lineAt lines n) "//" = false ∧
          jsStartsWith (lineAt lines n) "/*" = false ∧
          jsStartsWith (lineAt lines n) "*" = false ∧
          jsEndsWith (lineAt lines n) "*/" = false
      · simp only [if_pos h2]
      · simp only [if_neg h2]
        by_cases h3 : jsStartsWith (lineAt lines n) "/**" = true
        · simp only [if_pos h3]
        · simp only [if_neg h3]
          by_cases h4 : jsStartsWith (lineAt lines n) "/*" = true
          · simp only [if_pos h4]
          · simp only [if_neg h4]
            by_cases h5 : jsEndsWith (lineAt lines n) "*/" = true
            · simp only [if_pos h5]
              exact ih true fcs cs (fun _ => rfl)
            · simp only [if_neg h5]
              by_cases h6 : jsStartsWith (lineAt lines n) "*" = true
              · simp only [if_pos h6]
                exact ih true fcs cs (fun _ => rfl)
              · simp only [if_neg h6]
                by_cases h7 : jsStartsWith (lineAt lines n) "//" = true
                · simp only [if_pos h7]
                  exact ih true true _ (fun _ => rfl)
                · simp only [if_neg h7]

/-- C9 amended: blank lines are always treated as continuation — the
terminator case (outside a comment, after a comment was found) is
unreachable, because every branch that finds a comment also enters comment
context, so the faithful scan agrees everywhere with the
always-continue-on-blank scan (first conjunct). The scan still stops at the
first non-comment non-blank line or file start, and when a comment is found
the chunk's `start_line` moves to the scan's reported comment start and its
content is re-sliced from that line (second conjunct). For a block or
JavaDoc comment that reported line is the opening `/*`/`/**` line, but for a
run of `//` line comments it is the line of the `//` comment nearest the
chunk, not the first line of the run (third conjunct: on two stacked `//`
lines above line 3, the scan reports line 2). -/
theorem enhanceChunks_comment_scan_amended (lines : List String) (i : Nat)
    (inC fcs : Bool) (cs : Nat) (hinv : fcs = true → inC = true)
    (codeLines : List String) (chunk : Chunk) :
    scanUp lines i inC fcs cs = scanUpAmended lines i inC fcs cs ∧
      enhanceChunk codeLines chunk =
        (if (scanUp codeLines
              ((if chunk.startLine = 0 then 1 else chunk.startLine) - 1) false false
              (if chunk.startLine = 0 then 1 else chunk.startLine)).found then
          { content := joinLines ((codeLines.drop
              ((scanUp codeLines
                ((if chunk.startLine = 0 then 1 else chunk.startLine) - 1) false false
                (if chunk.startLine = 0 then 1 else chunk.startLine)).commentStart - 1)).take
              ((if chunk.endLine = 0 then codeLines.length else chunk.endLine) -
                ((scanUp codeLines
                  ((if chunk.startLine = 0 then 1 else chunk.startLine) - 1) false false
                  (if chunk.startLine = 0 then 1 else chunk.startLine)).commentStart - 1)))
            startLine := (scanUp codeLines
              ((if chunk.startLine = 0 then 1 else chunk.startLine) - 1) false false
              (if chunk.startLine = 0 then 1 else chunk.startLine)).commentStart
            endLine := chunk.endLine }
        else chunk) ∧
      scanUp ["// a", "// b", "void m();"] 2 false false 3 = ⟨true, 2⟩ := by
  refine ⟨scanUp_eq_amended lines i inC fcs cs hinv, rfl, ?_⟩
  decide

/-- Witness for the amended C9 theorem at the counterexample input. -/
theorem enhanceChunks_comment_scan_amended_witness :
    (false = true → false = true) ∧
      scanUp ["// c", "", "void m();"] 2 false false 3 =
        scanUpAmended ["// c", "", "void m();"] 2 false false 3 :=
  ⟨fun h => h,
    (enhanceChunks_comment_scan_amended ["// c", "", "void m();"] 2 false false 3
      (fun h => h) [] ⟨"void m();", 3, 3⟩).1⟩

end CodeContext
